import Mathlib

/-!
Verification of the oracle hash table, key generators and fuzz driver of
rax-test.c (a differential test harness for a radix tree).

Keys are byte strings, modelled as `List Nat` (each element one byte).
Values (`void *data` in the source; in the harness always a hash value)
are modelled as `Nat`, with the `htNotFound` sentinel modelled as `none`
of an `Option Nat`.  Machine integers are modelled as `Nat` with explicit
`% 2 ^ 32` where 32-bit wrap-around can occur.
-/

set_option autoImplicit false

namespace RaxTest

/-- `#define HT_TABLE_SIZE 100000` -/
def HT_TABLE_SIZE : Nat := 100000

/-- One chain node of the oracle table (`struct htNode`).  The C struct
stores `keylen` and a pointer to `keylen` bytes; the pair is modelled as
the byte list `key`, whose length is the stored `keylen`. -/
structure htNode where
  key : List Nat
  data : Nat
  deriving Repr, DecidableEq

/-- The oracle table (`struct ht`): a live-element counter and a fixed
array of `HT_TABLE_SIZE` bucket chains.  Each chain (a linked list of
`htNode` in C) is a `List htNode`; the array is a function from bucket
index to chain (only indices below `HT_TABLE_SIZE` are ever used). -/
structure hashtable where
  numele : Nat
  table : Nat → List htNode

/-- `htNew`: the C code allocates the struct with `malloc` and sets only
`numele` to zero; the bucket array keeps whatever bytes the allocator
returned.  The pre-existing memory contents are therefore a parameter:
`mem` is the bucket array as found in the freshly allocated block. -/
def htNew (mem : Nat → List htNode) : hashtable :=
  { numele := 0, table := mem }

/-- `htHash`: djb2 — `hash = 5381`, then `hash = hash * 33 + s[i]` on a
`uint32_t` (wrapping modulo `2 ^ 32`), finally `hash % HT_TABLE_SIZE`. -/
def htHash (s : List Nat) : Nat :=
  (s.foldl (fun h c => (h * 33 + c) % 2 ^ 32) 5381) % HT_TABLE_SIZE

/-- `htRawLookup`: walk the chain of bucket `htHash s` and return the
first node whose key has the same length and bytes (`n->keylen == len &&
memcmp(n->key,s,len) == 0`, i.e. list equality). -/
def htRawLookup (t : hashtable) (s : List Nat) : Option htNode :=
  (t.table (htHash s)).find? (fun n => n.key = s)

/-- The in-place update `n->data = data` performed by `htAdd` when the
key already exists: replace the data of the first node of the chain
whose key equals `s` (the node `htRawLookup` returned). -/
def replaceData : List htNode → List Nat → Nat → List htNode
  | [], _, _ => []
  | n :: rest, s, d =>
      if n.key = s then { n with data := d } :: rest
      else n :: replaceData rest s d

/-- The unlink `*parentlink = n->next` performed by `htRem`:
`parentlink` points at the link leading to the first matching node, so
the first node of the chain whose key equals `s` is removed. -/
def removeFirst : List htNode → List Nat → List htNode
  | [], _ => []
  | n :: rest, s => if n.key = s then rest else n :: removeFirst rest s

/-- `htAdd`: look the key up; if absent, allocate a node holding a copy
of the key, link it at the head of its bucket chain, increment `numele`
and return 1; if present, overwrite that node's `data` and return 0. -/
def htAdd (t : hashtable) (s : List Nat) (d : Nat) : Nat × hashtable :=
  let h := htHash s
  match htRawLookup t s with
  | none =>
      (1, { numele := t.numele + 1,
            table := fun j => if j = h then ⟨s, d⟩ :: t.table h else t.table j })
  | some _ =>
      (0, { numele := t.numele,
            table := fun j => if j = h then replaceData (t.table h) s d else t.table j })

/-- `htRem`: look the key up tracking the parent link; if absent return
0 and leave the table alone; if present unlink the node, free it and
return 1.  NOTE: exactly as in the source, `numele` is not changed. -/
def htRem (t : hashtable) (s : List Nat) : Nat × hashtable :=
  let h := htHash s
  match htRawLookup t s with
  | none => (0, t)
  | some _ =>
      (1, { numele := t.numele,
            table := fun j => if j = h then removeFirst (t.table h) s else t.table j })

/-- `htFind`: same lookup; the associated value, or `none` standing for
the `htNotFound` sentinel. -/
def htFind (t : hashtable) (s : List Nat) : Option Nat :=
  (htRawLookup t s).map htNode.data

/-- A table whose counter is zero and whose buckets are all empty: the
state the spec intends `htNew` to produce. -/
def emptyTable : hashtable :=
  { numele := 0, table := fun _ => [] }

/-! ## Key generation -/

/-- The round function of `int2int`'s Feistel network:
`(((r * 31) + (r >> 5) + 7 * 371) ^ r) & 0xffff`.  `r >> 5` is `r / 32`,
and masking a non-negative value with `0xffff` is `% 65536`.  The 16-bit
operands are promoted to `int` in C, and the intermediate sum
(at most `65535 * 31 + 2047 + 2597`) never overflows it. -/
def feistelF (r : Nat) : Nat :=
  ((r * 31 + r / 32 + 7 * 371) ^^^ r) % 65536

/-- One iteration of the loop body of `int2int`:
`nl = r; F = feistelF r; r = l ^ F; l = nl`. -/
def int2intRound : Nat × Nat → Nat × Nat
  | (l, r) => (r, l ^^^ feistelF r)

/-- `k` iterations of the loop body (the source runs 8). -/
def int2intLoop : Nat → Nat × Nat → Nat × Nat
  | 0, p => p
  | k + 1, p => int2intLoop k (int2intRound p)

/-- `int2int`: split the input into 16-bit halves
(`l = input & 0xffff`, `r = input >> 16`), run 8 Feistel rounds and
reassemble as `(r << 16) | l`.  Since the low half stays below `2 ^ 16`,
the bit-or is the sum `r * 65536 + l`. -/
def int2int (input : Nat) : Nat :=
  let p := int2intLoop 8 (input % 65536, input / 65536)
  p.2 * 65536 + p.1

/-- Inverse of one Feistel round (the round only xors with a function of
the half that is passed through unchanged, so it is invertible). -/
def int2intRoundInv : Nat × Nat → Nat × Nat
  | (l, r) => (r ^^^ feistelF l, l)

/-- `k` applications of the inverse round. -/
def int2intLoopInv : Nat → Nat × Nat → Nat × Nat
  | 0, p => p
  | k + 1, p => int2intRoundInv (int2intLoopInv k p)

/-- Explicit inverse of `int2int`, used to establish bijectivity. -/
def int2intInv (output : Nat) : Nat :=
  let p := int2intLoopInv 8 (output % 65536, output / 65536)
  p.2 * 65536 + p.1

/-- The 62-character set of `int2alphakey`: `A..Z`, `a..z`, `0..9`,
as byte values. -/
def alphaSet : List Nat :=
  (List.range 26).map (fun k => 65 + k) ++
  (List.range 26).map (fun k => 97 + k) ++
  (List.range 10).map (fun k => 48 + k)

/-- `set[d]` for a digit `d` (only `d < 62` is ever used). -/
def alphaChar (d : Nat) : Nat := alphaSet.getD d 0

/-- The digit sequence written by `int2alphakey`'s loop, least
significant first: with at most `m` slots left, emit `i % 62`, divide,
and stop when the quotient reaches zero or the slots run out. -/
def alphaDigits : Nat → Nat → List Nat
  | 0, _ => []
  | m + 1, i => i % 62 :: (if i / 62 = 0 then [] else alphaDigits m (i / 62))

/-- `int2alphakey`: if `maxlen == 0` produce nothing, otherwise reserve
one byte for the terminator and write base-62 digits (least significant
first) through `alphaSet` until the value is exhausted or the buffer is
full.  The returned key is the written bytes; its length is the returned
`len`. -/
def int2alphakey (maxlen : Nat) (i : Nat) : List Nat :=
  if maxlen = 0 then [] else (alphaDigits (maxlen - 1) i).map alphaChar

/-- Divide-by-ten loop producing the decimal digits of `n`, least
significant first.  The first argument is fuel making the recursion
structural; `fuel > n` always suffices since the argument shrinks by a
factor of ten per step, so `decRev` below never exhausts it. -/
def decRevAux : Nat → Nat → List Nat
  | 0, _ => []
  | fuel + 1, n => if n < 10 then [n] else n % 10 :: decRevAux fuel (n / 10)

/-- Decimal digits of `n`, least significant first, as written by
`snprintf` with format `%lu` (always at least one digit). -/
def decRev (n : Nat) : List Nat :=
  decRevAux (n + 1) n

/-- The full decimal ASCII representation of `i` (most significant digit
first, each digit offset by the code of the zero character). -/
def snprintfLu (i : Nat) : List Nat :=
  (decRev i).reverse.map (fun d => d + 48)

/-- `int2key`: turn index `i` into a key bytes/length pair according to
`mode`, with a destination buffer of `maxlen` bytes.  `g` is the ambient
random stream (successive `rand()` results), consulted only by mode 2.
The result is the pair (returned length, bytes stored in the buffer):
* mode 0 (`KEY_INT`): `snprintf(s, maxlen, "%lu", i)` stores at most
  `maxlen - 1` characters but returns the full decimal length of `i`;
* mode 1 (`KEY_UNIQUE_ALPHA`): `int2alphakey(s, maxlen, int2int(i))`,
  whose returned length is the number of bytes stored;
* mode 2 (`KEY_RANDOM`): draw `r = rand() % maxlen` — undefined
  behaviour (division by zero) when `maxlen == 0`, modelled as `none` —
  then store `r` random bytes masked to `0..255`;
* any other mode: length 0, nothing stored. -/
def int2key (maxlen : Nat) (i : Nat) (mode : Int) (g : Nat → Nat) :
    Option (Nat × List Nat) :=
  if mode = 0 then
    some ((decRev i).length, (snprintfLu i).take (maxlen - 1))
  else if mode = 1 then
    some ((int2alphakey maxlen (int2int i)).length, int2alphakey maxlen (int2int i))
  else if mode = 2 then
    if maxlen = 0 then none
    else
      let r := g 0 % maxlen
      some (r, (List.range r).map (fun k => g (k + 1) % 256))
  else
    some (0, [])

/-! ## The fuzz engine and driver

`fuzzTest` exercises the oracle table against the radix tree.  The
radix tree itself (`rax.h` / `rax.c`) is not part of the sources, so it
is modelled from the spec as an abstract state type with the consumed
interface. -/

/-- Modelled from the spec: the required external-index interface
(`raxNew`, `raxInsert`, `rax->numele`, `raxFind`, and the ordered
iterator `raxStart`/`raxSeek "^"`/`raxNext`), whose implementation
(`rax.c`/`rax.h`) is missing from the sources.  `insert` returns 1 when
the key was new and 0 when it existed; `find` returns the stored value
or the not-found sentinel (`none`); `iterKeys` is the full key sequence
yielded by an iterator seeked to the smallest key. -/
structure RaxModel (σ : Type) where
  new : σ
  insert : σ → List Nat → Nat → Nat × σ
  numele : σ → Nat
  find : σ → List Nat → Option Nat
  iterKeys : σ → List (List Nat)

/-- How many values mode `mode` consumes from the random stream when
generating one key into a `maxlen`-byte buffer: `KEY_RANDOM` draws a
length and then one value per byte; other modes do not touch it. -/
def randTaken (maxlen : Nat) (mode : Int) (g : Nat → Nat) : Nat :=
  if mode = 2 ∧ maxlen ≠ 0 then 1 + g 0 % maxlen else 0

/-- The population loop of `fuzzTest` over a list of indices: generate
the key for each index into a 64-byte buffer, insert (key, hash) into
both stores, and stop with an error as soon as the two novelty reports
disagree (the C code prints and returns 1 at that point).  The state is
(oracle table, index state, position in the random stream).  The two
guards that yield `.error` without a novelty mismatch model behaviour
the C code would make undefined: a key generator returning no key, or a
returned length exceeding the bytes actually stored; neither can occur
with a 64-byte buffer and the driver's indices. -/
def fuzzPopulate {σ : Type} (R : RaxModel σ) (mode : Int) (g : Nat → Nat) :
    List Nat → hashtable × σ × Nat → Except Unit (hashtable × σ × Nat)
  | [], st => .ok st
  | i :: rest, (ht, rx, pos) =>
      match int2key 64 i mode (fun k => g (pos + k)) with
      | none => .error ()
      | some (len, bytes) =>
          if len ≠ bytes.length then .error ()
          else
            let val := htHash bytes
            let a1 := htAdd ht bytes val
            let a2 := R.insert rx bytes val
            if a1.1 ≠ a2.1 then .error ()
            else
              fuzzPopulate R mode g rest
                (a1.2, a2.2, pos + randTaken 64 mode (fun k => g (pos + k)))

/-- The tail of `fuzzTest` after the population loop: a population
failure has already returned 1; otherwise check that the counts agree,
that every key yielded by the ordered iterator has the recomputed hash
as its value in both stores, and that the iterator yielded exactly
`numele` keys; return 0 on success and 1 on the first failed check. -/
def fuzzCheck {σ : Type} (R : RaxModel σ)
    (res : Except Unit (hashtable × σ × Nat)) : Nat :=
  match res with
  | .error _ => 1
  | .ok (ht, rx, _) =>
      if ht.numele ≠ R.numele rx then 1
      else
        let keys := R.iterKeys rx
        if keys.all (fun k =>
            htFind ht k == R.find rx k && htFind ht k == some (htHash k)) then
          if ht.numele = keys.length then 0 else 1
        else 1

/-- `fuzzTest`: populate both stores with one million keys, then run
the count, value and iterator checks.  Returns 0 on success, 1 on the
first failed check.  `mem` is the memory `htNew`'s allocation returns. -/
def fuzzTest {σ : Type} (R : RaxModel σ) (mem : Nat → List htNode)
    (mode : Int) (g : Nat → Nat) : Nat :=
  fuzzCheck R (fuzzPopulate R mode g (List.range 1000000) (htNew mem, R.new, 0))

/-- The default path of `main`: the three fuzz categories run in order
(`KEY_INT`, `KEY_UNIQUE_ALPHA`, `KEY_RANDOM`), each against a fresh
index and a fresh oracle table; the list records each category with its
`fuzzTest` result. -/
def mainRuns {σ₁ σ₂ σ₃ : Type} (R1 : RaxModel σ₁) (R2 : RaxModel σ₂)
    (R3 : RaxModel σ₃) (mem1 mem2 mem3 : Nat → List htNode)
    (g : Nat → Nat) : List (Int × Nat) :=
  [(0, fuzzTest R1 mem1 0 g), (1, fuzzTest R2 mem2 1 g), (2, fuzzTest R3 mem3 2 g)]

/-- The exit status of `main` on the default path: `errors` starts at
zero and each category whose `fuzzTest` returns nonzero increments it. -/
def mainErrors {σ₁ σ₂ σ₃ : Type} (R1 : RaxModel σ₁) (R2 : RaxModel σ₂)
    (R3 : RaxModel σ₃) (mem1 mem2 mem3 : Nat → List htNode)
    (g : Nat → Nat) : Nat :=
  (mainRuns R1 R2 R3 mem1 mem2 mem3 g).foldl
    (fun e p => if p.2 ≠ 0 then e + 1 else e) 0

/-- The hash as the spec words it: seed 5381; for each byte in order,
`hash = hash * 33 + byte` wrapping modulo `2 ^ 32`; reduced modulo the
bucket count.  Used to compare `htHash` against the spec sentence. -/
def djb2 (s : List Nat) : Nat :=
  s.foldl (fun h b => (h * 33 + b) % 2 ^ 32) 5381

/-! ## Invariants and auxiliary notions used by the claims -/

/-- No two entries reachable from the bucket array share an identical
key: the per-bucket key lists have no duplicates, and no key occurs in
two different buckets. -/
def NoDupKeys (t : hashtable) : Prop :=
  (∀ i, i < HT_TABLE_SIZE → ((t.table i).map htNode.key).Nodup) ∧
  (∀ i j, i < HT_TABLE_SIZE → j < HT_TABLE_SIZE → i ≠ j →
    ∀ k, k ∈ (t.table i).map htNode.key → k ∉ (t.table j).map htNode.key)

/-- Every entry sits in the bucket its key hashes to.  This placement
invariant is what the operations actually maintain, and without it the
duplicate-free invariant alone is not preserved by `htAdd`. -/
def WellBucketed (t : hashtable) : Prop :=
  ∀ i, i < HT_TABLE_SIZE → ∀ k, k ∈ (t.table i).map htNode.key → htHash k = i

/-- Decode a least-significant-first base-62 digit list. -/
def decode62 (L : List Nat) : Nat :=
  L.foldr (fun d acc => d + 62 * acc) 0

/-- Decode a least-significant-first decimal digit list. -/
def decode10 (L : List Nat) : Nat :=
  L.foldr (fun d acc => d + 10 * acc) 0

/-- A duplicate-free table whose single entry sits in a bucket other
than the one its key hashes to (`htHash [0] = 77573`, the entry sits in
bucket 0).  No sequence of operations produces such a state, but it
does satisfy the bare duplicate-free invariant. -/
def cexTable : hashtable :=
  { numele := 1, table := fun j => if j = 0 then [⟨[0], 5⟩] else [] }

/-- Possible contents of the memory block `htNew`'s `malloc` returns: a
stale chain node with the empty key and value 7 in bucket 5381 (which
is `htHash []`), everything else empty. -/
def staleMem : Nat → List htNode :=
  fun j => if j = 5381 then [⟨[], 7⟩] else []

/-- A degenerate index model whose insert always reports "existed":
used to exhibit an insert-parity failure during population. -/
def raxAlwaysExisted : RaxModel Unit :=
  { new := ()
    insert := fun _ _ _ => (0, ())
    numele := fun _ => 0
    find := fun _ _ => none
    iterKeys := fun _ => [] }

/-! ## Basic lemmas about the table operations -/

theorem htFind_eq_none_iff (t : hashtable) (s : List Nat) :
    htFind t s = none ↔ htRawLookup t s = none := by
  simp [htFind]

theorem htFind_emptyTable (s : List Nat) : htFind emptyTable s = none := rfl

theorem map_key_replaceData (c : List htNode) (s : List Nat) (d : Nat) :
    (replaceData c s d).map htNode.key = c.map htNode.key := by
  induction c with
  | nil => rfl
  | cons n rest ih => by_cases h : n.key = s <;> simp [replaceData, h, ih]

theorem find?_replaceData_self (c : List htNode) (s : List Nat) (d : Nat) :
    (replaceData c s d).find? (fun n => n.key = s)
      = (c.find? (fun n => n.key = s)).map (fun n => { n with data := d }) := by
  induction c with
  | nil => rfl
  | cons n rest ih =>
      by_cases h : n.key = s
      · simp [replaceData, h]
      · simp [replaceData, h, ih]

theorem find?_replaceData_ne (c : List htNode) (s s2 : List Nat) (d : Nat)
    (hne : s2 ≠ s) :
    (replaceData c s d).find? (fun n => n.key = s2)
      = c.find? (fun n => n.key = s2) := by
  induction c with
  | nil => rfl
  | cons n rest ih =>
      by_cases h : n.key = s
      · have h2 : ¬ (n.key = s2) := fun hk => hne (hk.symm.trans h)
        simp [replaceData, h, h2, List.find?_cons, Ne.symm hne]
      · by_cases h2 : n.key = s2 <;>
          simp [replaceData, h, h2, hne, ih, List.find?_cons]

theorem removeFirst_sublist (c : List htNode) (s : List Nat) :
    (removeFirst c s).Sublist c := by
  induction c with
  | nil => simp [removeFirst]
  | cons n rest ih =>
      by_cases h : n.key = s
      · simp [removeFirst, h]
      · simpa [removeFirst, h] using ih.cons₂ n

theorem htAdd_retval (t : hashtable) (s : List Nat) (d : Nat) :
    (htAdd t s d).1 = if htFind t s = none then 1 else 0 := by
  unfold htAdd
  rcases h : htRawLookup t s with _ | n <;> simp [htFind, h]

theorem htAdd_numele (t : hashtable) (s : List Nat) (d : Nat) :
    (htAdd t s d).2.numele = if htFind t s = none then t.numele + 1 else t.numele := by
  unfold htAdd
  rcases h : htRawLookup t s with _ | n <;> simp [htFind, h]

theorem htFind_htAdd_self (t : hashtable) (s : List Nat) (d : Nat) :
    htFind (htAdd t s d).2 s = some d := by
  unfold htFind htAdd
  rcases h : htRawLookup t s with _ | n
  · simp [htRawLookup]
  · simp only [htRawLookup] at h ⊢
    simp [find?_replaceData_self, h]

theorem htFind_htAdd_ne (t : hashtable) (s : List Nat) (d : Nat) (s2 : List Nat)
    (hne : s2 ≠ s) :
    htFind (htAdd t s d).2 s2 = htFind t s2 := by
  unfold htFind htAdd
  by_cases hh : htHash s2 = htHash s
  · rcases h : htRawLookup t s with _ | n
    · simp only [htRawLookup] at h ⊢
      simp [hh, Ne.symm hne, h]
    · simp only [htRawLookup] at h ⊢
      simp [hh, find?_replaceData_ne _ _ _ _ hne]
  · rcases h : htRawLookup t s with _ | n <;>
      simp [htRawLookup, hh]

theorem htAdd_chain_new (t : hashtable) (s : List Nat) (d : Nat)
    (h : htFind t s = none) :
    (htAdd t s d).2.table (htHash s) = ⟨s, d⟩ :: t.table (htHash s) := by
  rw [htFind_eq_none_iff] at h
  unfold htAdd
  simp [h]

theorem htAdd_chain_existing (t : hashtable) (s : List Nat) (d : Nat)
    (h : htFind t s ≠ none) :
    ((htAdd t s d).2.table (htHash s)).map htNode.key
      = (t.table (htHash s)).map htNode.key := by
  rw [Ne, htFind_eq_none_iff] at h
  unfold htAdd
  rcases hl : htRawLookup t s with _ | n
  · exact absurd hl h
  · simp [map_key_replaceData]

theorem htHash_lt_table_size (s : List Nat) : htHash s < HT_TABLE_SIZE :=
  Nat.mod_lt _ (by decide)

theorem not_mem_key_of_find?_none (c : List htNode) (s : List Nat)
    (h : c.find? (fun n => n.key = s) = none) : s ∉ c.map htNode.key := by
  rw [List.find?_eq_none] at h
  simp only [decide_eq_true_eq] at h
  intro hmem
  rcases List.mem_map.mp hmem with ⟨n, hn, hkey⟩
  exact h n hn hkey

theorem htAdd_table_eq (t : hashtable) (s : List Nat) (d : Nat) (j : Nat)
    (hj : j ≠ htHash s) : (htAdd t s d).2.table j = t.table j := by
  unfold htAdd
  rcases h : htRawLookup t s with _ | n <;> simp [hj]

theorem htAdd_map_key_bucket (t : hashtable) (s : List Nat) (d : Nat) :
    ((htAdd t s d).2.table (htHash s)).map htNode.key
      = if htRawLookup t s = none
          then s :: (t.table (htHash s)).map htNode.key
          else (t.table (htHash s)).map htNode.key := by
  unfold htAdd
  rcases h : htRawLookup t s with _ | n <;> simp [h, map_key_replaceData]

theorem htRem_table_eq (t : hashtable) (s : List Nat) (j : Nat)
    (hj : j ≠ htHash s) : (htRem t s).2.table j = t.table j := by
  unfold htRem
  rcases h : htRawLookup t s with _ | n <;> simp [hj]

theorem htRem_key_sublist (t : hashtable) (s : List Nat) :
    List.Sublist (((htRem t s).2.table (htHash s)).map htNode.key)
      ((t.table (htHash s)).map htNode.key) := by
  unfold htRem
  rcases h : htRawLookup t s with _ | n
  · simp
  · simpa using (removeFirst_sublist (t.table (htHash s)) s).map htNode.key

theorem NoDupKeys_htAdd (t : hashtable) (s : List Nat) (d : Nat)
    (hnd : NoDupKeys t) (hwb : WellBucketed t) : NoDupKeys (htAdd t s d).2 := by
  obtain ⟨hper, hcross⟩ := hnd
  constructor
  · intro i hi
    by_cases hih : i = htHash s
    · subst hih
      rw [htAdd_map_key_bucket]
      by_cases hl : htRawLookup t s = none
      · rw [if_pos hl, List.nodup_cons]
        exact ⟨not_mem_key_of_find?_none _ _ hl, hper _ hi⟩
      · rw [if_neg hl]
        exact hper _ hi
    · rw [htAdd_table_eq t s d i hih]
      exact hper i hi
  · intro i j hi hj hij k hki
    by_cases hih : i = htHash s <;> by_cases hjh : j = htHash s
    · exact absurd (hih.trans hjh.symm) hij
    · subst hih
      rw [htAdd_map_key_bucket] at hki
      rw [htAdd_table_eq t s d j hjh]
      by_cases hl : htRawLookup t s = none
      · rw [if_pos hl, List.mem_cons] at hki
        rcases hki with rfl | hki
        · intro hmem
          exact hjh (hwb j hj k hmem ▸ rfl)
        · exact hcross _ j hi hj hij k hki
      · rw [if_neg hl] at hki
        exact hcross _ j hi hj hij k hki
    · subst hjh
      rw [htAdd_table_eq t s d i hih] at hki
      rw [htAdd_map_key_bucket]
      by_cases hl : htRawLookup t s = none
      · rw [if_pos hl]
        simp only [List.mem_cons, not_or]
        refine ⟨fun hks => hih ?_, hcross i _ hi hj hij k hki⟩
        subst hks
        exact (hwb i hi k hki).symm
      · rw [if_neg hl]
        exact hcross i _ hi hj hij k hki
    · rw [htAdd_table_eq t s d i hih] at hki
      rw [htAdd_table_eq t s d j hjh]
      exact hcross i j hi hj hij k hki

theorem WellBucketed_htAdd (t : hashtable) (s : List Nat) (d : Nat)
    (hwb : WellBucketed t) : WellBucketed (htAdd t s d).2 := by
  intro i hi k hk
  by_cases hih : i = htHash s
  · subst hih
    rw [htAdd_map_key_bucket] at hk
    by_cases hl : htRawLookup t s = none
    · rw [if_pos hl, List.mem_cons] at hk
      rcases hk with rfl | hk
      · rfl
      · exact hwb _ hi k hk
    · rw [if_neg hl] at hk
      exact hwb _ hi k hk
  · rw [htAdd_table_eq t s d i hih] at hk
    exact hwb i hi k hk

theorem NoDupKeys_htRem (t : hashtable) (s : List Nat)
    (hnd : NoDupKeys t) : NoDupKeys (htRem t s).2 := by
  obtain ⟨hper, hcross⟩ := hnd
  have hmem : ∀ i, i < HT_TABLE_SIZE → ∀ k,
      k ∈ ((htRem t s).2.table i).map htNode.key → k ∈ (t.table i).map htNode.key := by
    intro i hi k hk
    by_cases hih : i = htHash s
    · subst hih
      exact (htRem_key_sublist t s).subset hk
    · rwa [htRem_table_eq t s i hih] at hk
  constructor
  · intro i hi
    by_cases hih : i = htHash s
    · subst hih
      exact (hper _ hi).sublist (htRem_key_sublist t s)
    · rw [htRem_table_eq t s i hih]
      exact hper i hi
  · intro i j hi hj hij k hki hkj
    exact hcross i j hi hj hij k (hmem i hi k hki) (hmem j hj k hkj)

theorem WellBucketed_htRem (t : hashtable) (s : List Nat)
    (hwb : WellBucketed t) : WellBucketed (htRem t s).2 := by
  intro i hi k hk
  by_cases hih : i = htHash s
  · subst hih
    exact hwb _ hi k ((htRem_key_sublist t s).subset hk)
  · rw [htRem_table_eq t s i hih] at hk
    exact hwb i hi k hk

/-! ## Claim theorems -/

/-- C6: for every key, `htHash` is the djb2 hash (seed 5381, each step
`hash * 33 + byte` wrapping modulo `2 ^ 32`) reduced modulo the bucket
count 100000, and its result is always strictly below 100000. -/
theorem htHash_is_djb2_mod_buckets (s : List Nat) :
    htHash s = djb2 s % 100000 ∧ htHash s < 100000 := by
  constructor
  · rfl
  · exact Nat.mod_lt _ (by decide)

/-- C1 (code bug): on a table holding exactly the key `[0]` with
counter 1, `htRem [0]` reports a removal and the entry is gone, but the
live-element counter still reads 1: the source's `htRem` never
decrements `numele`, while the spec says remove decrements the count by
exactly one.  The absent-key side behaves as claimed: the table is
returned unchanged with report 0. -/
theorem htRem_reports_removal_but_keeps_count :
    (htRem (htAdd emptyTable [0] 5).2 [0]).1 = 1 ∧
    htFind (htRem (htAdd emptyTable [0] 5).2 [0]).2 [0] = none ∧
    (htAdd emptyTable [0] 5).2.numele = 1 ∧
    (htRem (htAdd emptyTable [0] 5).2 [0]).2.numele = 1 ∧
    (∀ t s, htRawLookup t s = none → htRem t s = (0, t)) := by
  refine ⟨by decide, by decide, by decide, by decide, ?_⟩
  intro t s h
  unfold htRem
  simp [h]

/-- C2 (code bug): `htNew` sets the counter to zero but, because the
block comes from `malloc` and the bucket array is never cleared, the
buckets hold whatever the allocator returned.  With a stale node for
the empty key in bucket `htHash [] = 5381`, a find on the freshly
created table returns that stale value instead of the not-found
sentinel. -/
theorem htNew_leaves_buckets_uninitialized :
    (htNew staleMem).numele = 0 ∧
    htFind (htNew staleMem) [] = some 7 ∧
    (htNew staleMem).table 5381 ≠ [] := by
  refine ⟨rfl, by decide, by decide⟩

/-- C3: `htAdd` reports 1 exactly when the key is absent and 0 when it
is present; the counter grows by one exactly on a new key; the stored
value is retrievable afterwards; other keys are unaffected; a new entry
(whose node carries the key itself) is linked at the head of its bucket
chain, while an update leaves the chain's keys untouched; and inserting
the same key twice with values 10 then 20 into an empty table reports
new then existed, ends with find returning 20 and with count 1. -/
theorem htAdd_insert_update_spec (t : hashtable) (s : List Nat) (d : Nat) :
    ((htAdd t s d).1 = if htFind t s = none then 1 else 0) ∧
    ((htAdd t s d).2.numele
      = if htFind t s = none then t.numele + 1 else t.numele) ∧
    htFind (htAdd t s d).2 s = some d ∧
    (∀ s2, s2 ≠ s → htFind (htAdd t s d).2 s2 = htFind t s2) ∧
    (htFind t s = none →
      (htAdd t s d).2.table (htHash s) = ⟨s, d⟩ :: t.table (htHash s)) ∧
    (htFind t s ≠ none →
      ((htAdd t s d).2.table (htHash s)).map htNode.key
        = (t.table (htHash s)).map htNode.key) ∧
    (htAdd emptyTable s 10).1 = 1 ∧
    (htAdd (htAdd emptyTable s 10).2 s 20).1 = 0 ∧
    htFind (htAdd (htAdd emptyTable s 10).2 s 20).2 s = some 20 ∧
    (htAdd (htAdd emptyTable s 10).2 s 20).2.numele = 1 := by
  have hfind1 : htFind (htAdd emptyTable s 10).2 s = some 10 :=
    htFind_htAdd_self _ _ _
  have hsc1 : (htAdd emptyTable s 10).1 = 1 := by
    rw [htAdd_retval, htFind_emptyTable, if_pos rfl]
  have hsc2 : (htAdd (htAdd emptyTable s 10).2 s 20).1 = 0 := by
    rw [htAdd_retval, hfind1, if_neg (by simp)]
  have hn1 : (htAdd emptyTable s 10).2.numele = 1 := by
    rw [htAdd_numele, htFind_emptyTable, if_pos rfl]
    rfl
  have hn2 : (htAdd (htAdd emptyTable s 10).2 s 20).2.numele = 1 := by
    rw [htAdd_numele, hfind1, if_neg (by simp)]
    exact hn1
  exact ⟨htAdd_retval t s d, htAdd_numele t s d, htFind_htAdd_self t s d,
    fun s2 h => htFind_htAdd_ne t s d s2 h,
    htAdd_chain_new t s d, htAdd_chain_existing t s d,
    hsc1, hsc2, htFind_htAdd_self _ _ _, hn2⟩

/-- Witness for C3's conditional parts at concrete inputs: the key
`[66]` differs from `[65]`; `[65]` is absent from the empty table and
present after the first insert. -/
theorem htAdd_insert_update_spec_witness :
    htFind (htAdd emptyTable [65] 10).2 [66] = htFind emptyTable [66] ∧
    (htAdd emptyTable [65] 10).2.table (htHash [65])
      = ⟨[65], 10⟩ :: emptyTable.table (htHash [65]) ∧
    ((htAdd (htAdd emptyTable [65] 10).2 [65] 20).2.table (htHash [65])).map htNode.key
      = ((htAdd emptyTable [65] 10).2.table (htHash [65])).map htNode.key :=
  ⟨(htAdd_insert_update_spec emptyTable [65] 10).2.2.2.1 [66] (by decide),
    (htAdd_insert_update_spec emptyTable [65] 10).2.2.2.2.1 (by decide),
    (htAdd_insert_update_spec (htAdd emptyTable [65] 10).2 [65] 20).2.2.2.2.2.1
      (by decide)⟩

/-- C5 counterexample: the bare duplicate-free invariant alone is not
preserved by insert.  `cexTable` holds the single key `[0]`, placed in
bucket 0 although `htHash [0] = 77573`, so it satisfies the invariant;
`htAdd` looks only in bucket 77573, misses the entry, and inserts a
second entry with the identical key. -/
theorem nodup_invariant_not_preserved :
    NoDupKeys cexTable ∧ ¬ NoDupKeys (htAdd cexTable [0] 5).2 := by
  constructor
  · constructor
    · intro i _
      by_cases h : i = 0 <;> simp [cexTable, h]
    · intro i j _ _ hij k hk
      by_cases hi : i = 0
      · have hj : ¬ (j = 0) := fun hj0 => hij (hi.trans hj0.symm)
        simp [cexTable, hj]
      · simp [cexTable, hi] at hk
  · intro hnd
    have h0 : (htAdd cexTable [0] 5).2.table 0 = [⟨[0], 5⟩] := by decide
    have h77 : (htAdd cexTable [0] 5).2.table 77573 = [⟨[0], 5⟩] := by decide
    exact hnd.2 0 77573 (by decide) (by decide) (by decide) [0]
      (by rw [h0]; simp) (by rw [h77]; simp)

/-- C5 amended: the inductive invariant additionally requires every
entry to sit in the bucket its key hashes to; insert and remove
preserve the conjunction of the duplicate-free and placement
invariants, hence no reachable table ever holds two entries with an
identical key. -/
theorem nodup_invariant_preserved (t : hashtable) (s : List Nat) (d : Nat)
    (hnd : NoDupKeys t) (hwb : WellBucketed t) :
    (NoDupKeys (htAdd t s d).2 ∧ WellBucketed (htAdd t s d).2) ∧
    (NoDupKeys (htRem t s).2 ∧ WellBucketed (htRem t s).2) :=
  ⟨⟨NoDupKeys_htAdd t s d ⟨hnd.1, hnd.2⟩ hwb, WellBucketed_htAdd t s d hwb⟩,
    ⟨NoDupKeys_htRem t s ⟨hnd.1, hnd.2⟩, WellBucketed_htRem t s hwb⟩⟩

/-- Witness for C5's amended theorem at the all-empty table. -/
theorem nodup_invariant_preserved_witness :
    NoDupKeys (htAdd emptyTable [1] 2).2 ∧ WellBucketed (htRem emptyTable [1]).2 := by
  have hnd : NoDupKeys emptyTable :=
    ⟨fun i _ => by simp [emptyTable],
      fun i j _ _ _ k hk => by simp [emptyTable] at hk⟩
  have hwb : WellBucketed emptyTable := fun i _ k hk => by simp [emptyTable] at hk
  exact ⟨(nodup_invariant_preserved emptyTable [1] 2 hnd hwb).1.1,
    (nodup_invariant_preserved emptyTable [1] 2 hnd hwb).2.2⟩

/-- C10: calling `int2key` with any mode other than 0, 1 and 2 returns
length 0 with no bytes stored and signals no error. -/
theorem int2key_unknown_mode_empty (maxlen i : Nat) (mode : Int) (g : Nat → Nat)
    (h0 : mode ≠ 0) (h1 : mode ≠ 1) (h2 : mode ≠ 2) :
    int2key maxlen i mode g = some (0, []) := by
  simp [int2key, h0, h1, h2]

/-- Witness for C10 at the concrete undefined mode `-1`. -/
theorem int2key_unknown_mode_empty_witness :
    int2key 64 7 (-1) (fun _ => 0) = some (0, []) :=
  int2key_unknown_mode_empty 64 7 (-1) (fun _ => 0)
    (by decide) (by decide) (by decide)

/-! ## Decimal representation lemmas (INT mode) -/

theorem decode10_decRevAux (fuel n : Nat) (h : n < fuel) :
    decode10 (decRevAux fuel n) = n := by
  induction fuel generalizing n with
  | zero => omega
  | succ fuel ih =>
      by_cases hn : n < 10
      · simp [decRevAux, hn, decode10]
      · have hdiv : n / 10 < n := Nat.div_lt_self (by omega) (by omega)
        simp only [decRevAux, if_neg hn]
        show n % 10 + 10 * decode10 (decRevAux fuel (n / 10)) = n
        rw [ih _ (by omega)]
        exact Nat.mod_add_div n 10

theorem decode10_decRev (n : Nat) : decode10 (decRev n) = n :=
  decode10_decRevAux (n + 1) n (Nat.lt_succ_self n)

theorem decRev_inj (i j : Nat) (h : decRev i = decRev j) : i = j := by
  have := congrArg decode10 h
  rwa [decode10_decRev, decode10_decRev] at this

theorem decRevAux_length_le (fuel : Nat) : ∀ m n : Nat, 1 ≤ m → n < fuel →
    n < 10 ^ m → (decRevAux fuel n).length ≤ m := by
  induction fuel with
  | zero => intro m n _ h; omega
  | succ fuel ih =>
      intro m n hm hn h
      by_cases hlt : n < 10
      · simp only [decRevAux, if_pos hlt, List.length_cons, List.length_nil]
        omega
      · simp only [decRevAux, if_neg hlt, List.length_cons]
        have hm2 : 2 ≤ m := by
          by_contra hc
          push_neg at hc
          have hm1 : m = 1 := by omega
          subst hm1
          simp at h
          omega
        have hdiv : n / 10 < n := Nat.div_lt_self (by omega) (by omega)
        have hdiv10 : n / 10 < 10 ^ (m - 1) := by
          rw [Nat.div_lt_iff_lt_mul (by omega)]
          calc n < 10 ^ m := h
          _ = 10 ^ (m - 1) * 10 := by rw [← pow_succ]; congr 1; omega
        have := ih (m - 1) (n / 10) (by omega) (by omega) hdiv10
        omega

theorem decRev_length_le (m n : Nat) (hm : 1 ≤ m) (h : n < 10 ^ m) :
    (decRev n).length ≤ m :=
  decRevAux_length_le (n + 1) m n hm (Nat.lt_succ_self n) h

theorem snprintfLu_inj (i j : Nat) (h : snprintfLu i = snprintfLu j) : i = j := by
  unfold snprintfLu at h
  have h1 : (decRev i).reverse = (decRev j).reverse :=
    List.map_injective_iff.mpr (fun a b hab => by omega) h
  exact decRev_inj i j (List.reverse_injective h1)

theorem int2key_mode_other (maxlen i : Nat) (mode : Int) (g : Nat → Nat)
    (h0 : mode ≠ 0) (h1 : mode ≠ 1) (h2 : mode ≠ 2) :
    int2key maxlen i mode g = some (0, []) := by
  simp [int2key, h0, h1, h2]

theorem int2key_mode0 (maxlen i : Nat) (g : Nat → Nat) :
    int2key maxlen i 0 g
      = some ((decRev i).length, (snprintfLu i).take (maxlen - 1)) := by
  simp [int2key]

theorem int2key_mode1 (maxlen i : Nat) (g : Nat → Nat) :
    int2key maxlen i 1 g
      = some ((int2alphakey maxlen (int2int i)).length,
          int2alphakey maxlen (int2int i)) := by
  norm_num [int2key]

theorem int2key_mode2 (maxlen i : Nat) (g : Nat → Nat) (h : maxlen ≠ 0) :
    int2key maxlen i 2 g
      = some (g 0 % maxlen, (List.range (g 0 % maxlen)).map (fun k => g (k + 1) % 256)) := by
  norm_num [int2key, h]

theorem int2key_mode2_zero (i : Nat) (g : Nat → Nat) :
    int2key 0 i 2 g = none := by
  norm_num [int2key]

/-- C8: INT-mode key generation with a 64-byte buffer is injective on
the driver's index range, so the indices 0 through 999999 yield one
million pairwise-distinct keys (regardless of the random stream, which
this mode does not consult). -/
theorem int_mode_keys_pairwise_distinct (i j : Nat) (g1 g2 : Nat → Nat)
    (hi : i < 1000000) (hj : j < 1000000) (hij : i ≠ j) :
    int2key 64 i 0 g1 ≠ int2key 64 j 0 g2 := by
  intro h
  rw [int2key_mode0, int2key_mode0] at h
  simp only [Option.some.injEq, Prod.mk.injEq] at h
  have hleni : (snprintfLu i).length ≤ 63 := by
    have h6 : (decRev i).length ≤ 6 :=
      decRev_length_le 6 i (by omega) (by calc i < 1000000 := hi
        _ ≤ 10 ^ 6 := by norm_num)
    simp only [snprintfLu, List.length_map, List.length_reverse]
    omega
  have hlenj : (snprintfLu j).length ≤ 63 := by
    have h6 : (decRev j).length ≤ 6 :=
      decRev_length_le 6 j (by omega) (by calc j < 1000000 := hj
        _ ≤ 10 ^ 6 := by norm_num)
    simp only [snprintfLu, List.length_map, List.length_reverse]
    omega
  have hkey : (snprintfLu i).take 63 = (snprintfLu j).take 63 := h.2
  rw [List.take_of_length_le hleni, List.take_of_length_le hlenj] at hkey
  exact hij (snprintfLu_inj i j hkey)

/-- Witness for C8 at the concrete indices 0 and 1. -/
theorem int_mode_keys_pairwise_distinct_witness :
    int2key 64 0 0 (fun _ => 0) ≠ int2key 64 1 0 (fun _ => 0) :=
  int_mode_keys_pairwise_distinct 0 1 (fun _ => 0) (fun _ => 0)
    (by decide) (by decide) (by decide)

/-! ## Length bounds for the other key modes (C4) -/

theorem alphaDigits_length_le (m i : Nat) : (alphaDigits m i).length ≤ m := by
  induction m generalizing i with
  | zero => simp [alphaDigits]
  | succ m ih =>
      by_cases h : i / 62 = 0
      · simp [alphaDigits, h]
      · simp only [alphaDigits, if_neg h, List.length_cons]
        exact Nat.succ_le_succ (ih (i / 62))

theorem int2alphakey_length_le (maxlen i : Nat) :
    (int2alphakey maxlen i).length ≤ maxlen := by
  unfold int2alphakey
  by_cases h : maxlen = 0
  · simp [h]
  · rw [if_neg h, List.length_map]
    calc (alphaDigits (maxlen - 1) i).length ≤ maxlen - 1 :=
      alphaDigits_length_le _ _
    _ ≤ maxlen := Nat.sub_le _ _

/-! ## The Feistel permutation (C7) -/

theorem feistelF_lt (r : Nat) : feistelF r < 65536 :=
  Nat.mod_lt _ (by decide)

theorem xor_lt_65536 {x y : Nat} (hx : x < 65536) (hy : y < 65536) :
    x ^^^ y < 65536 := by
  have e : (65536 : Nat) = 2 ^ 16 := by norm_num
  rw [e] at hx hy ⊢
  exact Nat.bitwise_lt hx hy

theorem int2intRoundInv_round (p : Nat × Nat) :
    int2intRoundInv (int2intRound p) = p := by
  rcases p with ⟨l, r⟩
  show (l ^^^ feistelF r ^^^ feistelF r, r) = (l, r)
  rw [Nat.xor_assoc, Nat.xor_self, Nat.xor_zero]

theorem int2intRound_roundInv (p : Nat × Nat) :
    int2intRound (int2intRoundInv p) = p := by
  rcases p with ⟨l, r⟩
  show (l, r ^^^ feistelF l ^^^ feistelF l) = (l, r)
  rw [Nat.xor_assoc, Nat.xor_self, Nat.xor_zero]

theorem int2intLoopInv_loop (k : Nat) (p : Nat × Nat) :
    int2intLoopInv k (int2intLoop k p) = p := by
  induction k generalizing p with
  | zero => rfl
  | succ k ih =>
      show int2intRoundInv (int2intLoopInv k (int2intLoop k (int2intRound p))) = p
      rw [ih (int2intRound p)]
      exact int2intRoundInv_round p

theorem int2intLoop_loopInv (k : Nat) (p : Nat × Nat) :
    int2intLoop k (int2intLoopInv k p) = p := by
  induction k generalizing p with
  | zero => rfl
  | succ k ih =>
      show int2intLoop k (int2intRound (int2intRoundInv (int2intLoopInv k p))) = p
      rw [int2intRound_roundInv]
      exact ih p

theorem int2intLoop_lt (k : Nat) (p : Nat × Nat) (h1 : p.1 < 65536)
    (h2 : p.2 < 65536) :
    (int2intLoop k p).1 < 65536 ∧ (int2intLoop k p).2 < 65536 := by
  induction k generalizing p with
  | zero => exact ⟨h1, h2⟩
  | succ k ih =>
      rcases p with ⟨l, r⟩
      exact ih (int2intRound (l, r)) h2 (xor_lt_65536 h1 (feistelF_lt r))

theorem int2intLoopInv_lt (k : Nat) (p : Nat × Nat) (h1 : p.1 < 65536)
    (h2 : p.2 < 65536) :
    (int2intLoopInv k p).1 < 65536 ∧ (int2intLoopInv k p).2 < 65536 := by
  induction k generalizing p with
  | zero => exact ⟨h1, h2⟩
  | succ k ih =>
      have hq := ih p h1 h2
      show ((int2intLoopInv k p).2 ^^^ feistelF (int2intLoopInv k p).1,
        (int2intLoopInv k p).1).1 < 65536 ∧ _ < 65536
      exact ⟨xor_lt_65536 hq.2 (feistelF_lt _), hq.1⟩

theorem halves_lt (x : Nat) (hx : x < 2 ^ 32) :
    x % 65536 < 65536 ∧ x / 65536 < 65536 := by
  have e : (2 : Nat) ^ 32 = 65536 * 65536 := by norm_num
  constructor
  · exact Nat.mod_lt _ (by decide)
  · omega

theorem int2int_lt (x : Nat) (hx : x < 2 ^ 32) : int2int x < 2 ^ 32 := by
  obtain ⟨hl, hr⟩ := halves_lt x hx
  have hpb := int2intLoop_lt 8 (x % 65536, x / 65536) hl hr
  show (int2intLoop 8 (x % 65536, x / 65536)).2 * 65536
      + (int2intLoop 8 (x % 65536, x / 65536)).1 < 2 ^ 32
  omega

theorem int2intInv_lt (y : Nat) (hy : y < 2 ^ 32) : int2intInv y < 2 ^ 32 := by
  obtain ⟨hl, hr⟩ := halves_lt y hy
  have hpb := int2intLoopInv_lt 8 (y % 65536, y / 65536) hl hr
  show (int2intLoopInv 8 (y % 65536, y / 65536)).2 * 65536
      + (int2intLoopInv 8 (y % 65536, y / 65536)).1 < 2 ^ 32
  omega

theorem reassemble_mod (a b : Nat) (ha : a < 65536) :
    (b * 65536 + a) % 65536 = a := by omega

theorem reassemble_div (a b : Nat) (ha : a < 65536) :
    (b * 65536 + a) / 65536 = b := by omega

theorem int2intInv_int2int (x : Nat) (hx : x < 2 ^ 32) :
    int2intInv (int2int x) = x := by
  obtain ⟨hl, hr⟩ := halves_lt x hx
  have hpb := int2intLoop_lt 8 (x % 65536, x / 65536) hl hr
  show (int2intLoopInv 8
      (((int2intLoop 8 (x % 65536, x / 65536)).2 * 65536
          + (int2intLoop 8 (x % 65536, x / 65536)).1) % 65536,
        ((int2intLoop 8 (x % 65536, x / 65536)).2 * 65536
          + (int2intLoop 8 (x % 65536, x / 65536)).1) / 65536)).2 * 65536
      + (int2intLoopInv 8
      (((int2intLoop 8 (x % 65536, x / 65536)).2 * 65536
          + (int2intLoop 8 (x % 65536, x / 65536)).1) % 65536,
        ((int2intLoop 8 (x % 65536, x / 65536)).2 * 65536
          + (int2intLoop 8 (x % 65536, x / 65536)).1) / 65536)).1 = x
  rw [reassemble_mod _ _ hpb.1, reassemble_div _ _ hpb.1]
  rw [show ((int2intLoop 8 (x % 65536, x / 65536)).1,
    (int2intLoop 8 (x % 65536, x / 65536)).2)
      = int2intLoop 8 (x % 65536, x / 65536) from rfl]
  rw [int2intLoopInv_loop 8 (x % 65536, x / 65536)]
  show x / 65536 * 65536 + x % 65536 = x
  omega

theorem int2int_int2intInv (y : Nat) (hy : y < 2 ^ 32) :
    int2int (int2intInv y) = y := by
  obtain ⟨hl, hr⟩ := halves_lt y hy
  have hpb := int2intLoopInv_lt 8 (y % 65536, y / 65536) hl hr
  show (int2intLoop 8
      (((int2intLoopInv 8 (y % 65536, y / 65536)).2 * 65536
          + (int2intLoopInv 8 (y % 65536, y / 65536)).1) % 65536,
        ((int2intLoopInv 8 (y % 65536, y / 65536)).2 * 65536
          + (int2intLoopInv 8 (y % 65536, y / 65536)).1) / 65536)).2 * 65536
      + (int2intLoop 8
      (((int2intLoopInv 8 (y % 65536, y / 65536)).2 * 65536
          + (int2intLoopInv 8 (y % 65536, y / 65536)).1) % 65536,
        ((int2intLoopInv 8 (y % 65536, y / 65536)).2 * 65536
          + (int2intLoopInv 8 (y % 65536, y / 65536)).1) / 65536)).1 = y
  rw [reassemble_mod _ _ hpb.1, reassemble_div _ _ hpb.1]
  rw [show ((int2intLoopInv 8 (y % 65536, y / 65536)).1,
    (int2intLoopInv 8 (y % 65536, y / 65536)).2)
      = int2intLoopInv 8 (y % 65536, y / 65536) from rfl]
  rw [int2intLoop_loopInv 8 (y % 65536, y / 65536)]
  show y / 65536 * 65536 + y % 65536 = y
  omega

/-! ## Base-62 keys are injective (C7) -/

theorem alphaDigits_all_lt (m : Nat) : ∀ i : Nat, ∀ d ∈ alphaDigits m i, d < 62 := by
  induction m with
  | zero => intro i d hd; simp [alphaDigits] at hd
  | succ m ih =>
      intro i d hd
      rcases List.mem_cons.mp hd with rfl | hd2
      · exact Nat.mod_lt _ (by decide)
      · by_cases h : i / 62 = 0
        · rw [if_pos h] at hd2
          simp at hd2
        · rw [if_neg h] at hd2
          exact ih (i / 62) d hd2

theorem alphaSet_nodup : alphaSet.Nodup := by decide

theorem alphaSet_length : alphaSet.length = 62 := by decide

theorem alphaChar_inj {a b : Nat} (ha : a < 62) (hb : b < 62)
    (h : alphaChar a = alphaChar b) : a = b := by
  have hla : a < alphaSet.length := by rw [alphaSet_length]; exact ha
  have hlb : b < alphaSet.length := by rw [alphaSet_length]; exact hb
  unfold alphaChar at h
  rw [List.getD_eq_getElem alphaSet 0 hla, List.getD_eq_getElem alphaSet 0 hlb] at h
  exact alphaSet_nodup.getElem_inj_iff.mp h

theorem map_alphaChar_inj : ∀ L1 L2 : List Nat, (∀ d ∈ L1, d < 62) →
    (∀ d ∈ L2, d < 62) → L1.map alphaChar = L2.map alphaChar → L1 = L2 := by
  intro L1
  induction L1 with
  | nil =>
      intro L2 _ _ h
      cases L2 with
      | nil => rfl
      | cons b M => simp at h
  | cons a L ih =>
      intro L2 h1 h2 h
      cases L2 with
      | nil => simp at h
      | cons b M =>
          simp only [List.map_cons, List.cons.injEq] at h
          have hab : a = b :=
            alphaChar_inj (h1 a (by simp)) (h2 b (by simp)) h.1
          subst hab
          rw [ih M (fun d hd => h1 d (by simp [hd])) (fun d hd => h2 d (by simp [hd])) h.2]

theorem decode62_alphaDigits (m : Nat) : ∀ i : Nat, i < 62 ^ m →
    decode62 (alphaDigits m i) = i := by
  induction m with
  | zero =>
      intro i h
      simp only [pow_zero, Nat.lt_one_iff] at h
      subst h
      rfl
  | succ m ih =>
      intro i h
      by_cases hq : i / 62 = 0
      · simp only [alphaDigits, if_pos hq]
        show i % 62 + 62 * 0 = i
        omega
      · simp only [alphaDigits, if_neg hq]
        show i % 62 + 62 * decode62 (alphaDigits m (i / 62)) = i
        rw [ih (i / 62) ?_]
        · omega
        · rw [Nat.div_lt_iff_lt_mul (by omega)]
          calc i < 62 ^ (m + 1) := h
          _ = 62 ^ m * 62 := by rw [pow_succ]

theorem int2alphakey64_inj (i j : Nat) (hi : i < 62 ^ 63) (hj : j < 62 ^ 63)
    (h : int2alphakey 64 i = int2alphakey 64 j) : i = j := by
  unfold int2alphakey at h
  rw [if_neg (by decide), if_neg (by decide)] at h
  have hd : alphaDigits (64 - 1) i = alphaDigits (64 - 1) j :=
    map_alphaChar_inj _ _ (alphaDigits_all_lt (64 - 1) i)
      (alphaDigits_all_lt (64 - 1) j) h
  have hdec := congrArg decode62 hd
  rwa [decode62_alphaDigits (64 - 1) i (by simpa using hi),
    decode62_alphaDigits (64 - 1) j (by simpa using hj)] at hdec

theorem two_pow_32_lt_62_pow_63 : 2 ^ 32 < 62 ^ 63 := by
  calc (2 : Nat) ^ 32 < 62 ^ 6 := by norm_num
  _ ≤ 62 ^ 63 := Nat.pow_le_pow_right (by norm_num) (by norm_num)

/-- C7: the 8-round Feistel permutation `int2int` is a bijection on the
32-bit domain — it maps the domain into itself, is injective on it, and
every 32-bit value is hit — and consequently UNIQUE_ALPHA key
generation with a 64-byte buffer (`int2key` in mode 1, which never
truncates a 32-bit value's base-62 encoding) sends distinct 32-bit
indices to distinct keys. -/
theorem int2int_bijection_alpha_keys_distinct :
    (∀ x, x < 2 ^ 32 → int2int x < 2 ^ 32) ∧
    (∀ x y, x < 2 ^ 32 → y < 2 ^ 32 → int2int x = int2int y → x = y) ∧
    (∀ y, y < 2 ^ 32 → ∃ x, x < 2 ^ 32 ∧ int2int x = y) ∧
    (∀ (g : Nat → Nat) (x y : Nat), x < 2 ^ 32 → y < 2 ^ 32 → x ≠ y →
      int2key 64 x 1 g ≠ int2key 64 y 1 g) := by
  refine ⟨int2int_lt, ?_, ?_, ?_⟩
  · intro x y hx hy h
    have hc := congrArg int2intInv h
    rwa [int2intInv_int2int x hx, int2intInv_int2int y hy] at hc
  · intro y hy
    exact ⟨int2intInv y, int2intInv_lt y hy, int2int_int2intInv y hy⟩
  · intro g x y hx hy hxy h
    rw [int2key_mode1, int2key_mode1] at h
    simp only [Option.some.injEq, Prod.mk.injEq] at h
    have hIx : int2int x < 62 ^ 63 :=
      lt_trans (int2int_lt x hx) two_pow_32_lt_62_pow_63
    have hIy : int2int y < 62 ^ 63 :=
      lt_trans (int2int_lt y hy) two_pow_32_lt_62_pow_63
    have heq : int2int x = int2int y := int2alphakey64_inj _ _ hIx hIy h.2
    have hc := congrArg int2intInv heq
    rw [int2intInv_int2int x hx, int2intInv_int2int y hy] at hc
    exact hxy hc

/-- Witness for C7 at concrete points: 5 stays in range, 0 has a
preimage, and indices 0 and 1 give different UNIQUE_ALPHA keys. -/
theorem int2int_bijection_alpha_keys_distinct_witness :
    int2int 5 < 2 ^ 32 ∧
    (∃ x, x < 2 ^ 32 ∧ int2int x = 0) ∧
    int2key 64 0 1 (fun _ => 0) ≠ int2key 64 1 1 (fun _ => 0) :=
  ⟨int2int_bijection_alpha_keys_distinct.1 5 (by decide),
    int2int_bijection_alpha_keys_distinct.2.2.1 0 (by decide),
    int2int_bijection_alpha_keys_distinct.2.2.2 (fun _ => 0) 0 1
      (by decide) (by decide) (by decide)⟩

/-- C4 counterexample: as stated, the claim fails twice.  In INT mode
with buffer capacity 0, `snprintf` returns the full decimal length, so
`int2key` reports length 1 for index 0 — exceeding the capacity.  In
RANDOM mode with capacity 0, `rand() % maxlen` divides by zero, a
genuine failure mode (modelled as `none`).  The first conjunct refutes
the claim as a whole at those inputs. -/
theorem int2key_length_capacity_cex :
    (¬ ∀ (maxlen i : Nat) (mode : Int) (g : Nat → Nat),
        ∃ p, int2key maxlen i mode g = some p ∧ p.1 ≤ maxlen) ∧
    int2key 0 0 0 (fun _ => 0) = some (1, []) ∧
    int2key 0 5 2 (fun _ => 0) = none := by
  refine ⟨?_, by decide, by decide⟩
  intro hall
  obtain ⟨p, hp, hle⟩ := hall 0 0 0 (fun _ => 0)
  rw [show int2key 0 0 0 (fun _ => 0) = some (1, []) from by decide] at hp
  injection hp with hp
  subst hp
  exact absurd hle (by decide)

/-- C4 amended: `int2key` always returns a key except in RANDOM mode
with a zero-capacity buffer, where the `rand() % maxlen` divides by
zero; in every mode other than INT the returned length and the stored
bytes never exceed the buffer capacity; in INT mode the stored bytes
are truncated deterministically to the capacity, but the returned
length is the full decimal length of the index, which exceeds
capacities smaller than that length. -/
theorem int2key_totality_amended (maxlen i : Nat) (mode : Int) (g : Nat → Nat) :
    (mode ≠ 2 ∨ 0 < maxlen → ∃ p, int2key maxlen i mode g = some p) ∧
    (∀ p, int2key maxlen i mode g = some p → mode ≠ 0 →
      p.1 ≤ maxlen ∧ p.2.length ≤ maxlen) ∧
    (∀ p, int2key maxlen i mode g = some p → mode = 0 →
      p.1 = (decRev i).length ∧ p.2.length ≤ maxlen) ∧
    (mode = 2 → maxlen = 0 → int2key maxlen i mode g = none) := by
  refine ⟨?_, ?_, ?_, ?_⟩
  · intro hside
    by_cases h0 : mode = 0
    · subst h0; exact ⟨_, int2key_mode0 maxlen i g⟩
    · by_cases h1 : mode = 1
      · subst h1; exact ⟨_, int2key_mode1 maxlen i g⟩
      · by_cases h2 : mode = 2
        · subst h2
          have hm : maxlen ≠ 0 := by
            rcases hside with hc | hc
            · exact absurd rfl hc
            · omega
          exact ⟨_, int2key_mode2 maxlen i g hm⟩
        · exact ⟨_, int2key_mode_other maxlen i mode g h0 h1 h2⟩
  · intro p hp hmode
    by_cases h1 : mode = 1
    · subst h1
      rw [int2key_mode1] at hp
      injection hp with hp
      subst hp
      exact ⟨int2alphakey_length_le maxlen (int2int i),
        int2alphakey_length_le maxlen (int2int i)⟩
    · by_cases h2 : mode = 2
      · subst h2
        by_cases hm : maxlen = 0
        · subst hm
          rw [int2key_mode2_zero] at hp
          cases hp
        · rw [int2key_mode2 maxlen i g hm] at hp
          injection hp with hp
          subst hp
          constructor
          · exact le_of_lt (Nat.mod_lt _ (by omega))
          · simp only [List.length_map, List.length_range]
            exact le_of_lt (Nat.mod_lt _ (by omega))
      · rw [int2key_mode_other maxlen i mode g hmode h1 h2] at hp
        injection hp with hp
        subst hp
        exact ⟨Nat.zero_le _, Nat.zero_le _⟩
  · intro p hp hmode
    subst hmode
    rw [int2key_mode0] at hp
    injection hp with hp
    subst hp
    refine ⟨rfl, ?_⟩
    show ((snprintfLu i).take (maxlen - 1)).length ≤ maxlen
    have h1 : ((snprintfLu i).take (maxlen - 1)).length ≤ maxlen - 1 := by
      simp only [List.length_take]
      omega
    omega
  · intro h2 hm
    subst h2
    subst hm
    exact int2key_mode2_zero i g

/-- Witness for C4's amended theorem: INT mode at capacity 64 returns a
key; an update-mode key respects the capacity bound; at capacity 0 the
INT length is still the full decimal length 1; RANDOM with capacity 0
is the undefined case. -/
theorem int2key_totality_amended_witness :
    (∃ p, int2key 64 123 0 (fun _ => 0) = some p) ∧
    (int2alphakey 64 (int2int 9)).length ≤ 64 ∧
    (1 : Nat) = (decRev 0).length ∧
    int2key 0 7 2 (fun _ => 0) = none :=
  ⟨(int2key_totality_amended 64 123 0 (fun _ => 0)).1 (Or.inl (by decide)),
    (((int2key_totality_amended 64 9 1 (fun _ => 0)).2.1
      ((int2alphakey 64 (int2int 9)).length, int2alphakey 64 (int2int 9))
      (int2key_mode1 64 9 (fun _ => 0)) (by decide)).1),
    (((int2key_totality_amended 0 0 0 (fun _ => 0)).2.2.1 (1, [])
      (by decide) rfl).1),
    ((int2key_totality_amended 0 7 2 (fun _ => 0)).2.2.2 rfl rfl)⟩

theorem fuzzCheck_zero_or_one {σ : Type} (R : RaxModel σ)
    (res : Except Unit (hashtable × σ × Nat)) :
    fuzzCheck R res = 0 ∨ fuzzCheck R res = 1 := by
  unfold fuzzCheck
  split
  · right; rfl
  · split
    · right; rfl
    · dsimp only
      split
      · split
        · left; rfl
        · right; rfl
      · right; rfl

/-- C9 (external index modelled from the spec): on the default path the
exit status of `main` equals the number of the three fuzz categories
whose run failed; every `fuzzTest` run reports 0 or 1; the run sequence
always contains all three categories in order, whatever each category's
outcome; and an insert-parity disagreement makes the population loop
return the failure immediately, without consuming the remaining
indices of that category. -/
theorem main_exit_counts_failed_categories {σ₁ σ₂ σ₃ : Type}
    (R1 : RaxModel σ₁) (R2 : RaxModel σ₂) (R3 : RaxModel σ₃)
    (mem1 mem2 mem3 : Nat → List htNode) (g : Nat → Nat) :
    mainErrors R1 R2 R3 mem1 mem2 mem3 g
      = ((mainRuns R1 R2 R3 mem1 mem2 mem3 g).filter (fun p => p.2 ≠ 0)).length ∧
    (mainRuns R1 R2 R3 mem1 mem2 mem3 g).map Prod.fst = [0, 1, 2] ∧
    (∀ (σ : Type) (R : RaxModel σ) (mem : Nat → List htNode) (mode : Int)
      (g2 : Nat → Nat), fuzzTest R mem mode g2 = 0 ∨ fuzzTest R mem mode g2 = 1) ∧
    (∀ (σ : Type) (R : RaxModel σ) (mode : Int) (g2 : Nat → Nat) (i : Nat)
      (rest : List Nat) (ht : hashtable) (rx : σ) (pos : Nat)
      (len : Nat) (bytes : List Nat),
      int2key 64 i mode (fun k => g2 (pos + k)) = some (len, bytes) →
      len = bytes.length →
      (htAdd ht bytes (htHash bytes)).1 ≠ (R.insert rx bytes (htHash bytes)).1 →
      fuzzPopulate R mode g2 (i :: rest) (ht, rx, pos) = .error ()) := by
  refine ⟨?_, rfl, ?_, ?_⟩
  · by_cases h1 : fuzzTest R1 mem1 0 g = 0 <;>
      by_cases h2 : fuzzTest R2 mem2 1 g = 0 <;>
        by_cases h3 : fuzzTest R3 mem3 2 g = 0 <;>
          simp [mainErrors, mainRuns, h1, h2, h3]
  · intro σ R mem mode g2
    exact fuzzCheck_zero_or_one R
      (fuzzPopulate R mode g2 (List.range 1000000) (htNew mem, R.new, 0))
  · intro σ R mode g2 i rest ht rx pos len bytes hkey hlen hmism
    simp only [fuzzPopulate]
    rw [hkey]
    show (if len ≠ bytes.length then Except.error () else
      if (htAdd ht bytes (htHash bytes)).1 ≠ (R.insert rx bytes (htHash bytes)).1
        then Except.error ()
        else fuzzPopulate R mode g2 rest
          ((htAdd ht bytes (htHash bytes)).2, (R.insert rx bytes (htHash bytes)).2,
            pos + randTaken 64 mode (fun k => g2 (pos + k))))
      = Except.error ()
    rw [if_neg (by simp [hlen]), if_pos hmism]

/-- Witness for C9's early-termination part: against an index model
that always reports "existed", the very first index of INT mode already
disagrees, and population stops with the failure without consuming the
rest of the index list. -/
theorem main_exit_counts_failed_categories_witness :
    fuzzPopulate raxAlwaysExisted 0 (fun _ => 0) (0 :: [1, 2])
      (emptyTable, (), 0) = .error () :=
  (main_exit_counts_failed_categories raxAlwaysExisted raxAlwaysExisted
      raxAlwaysExisted (fun _ => []) (fun _ => []) (fun _ => []) (fun _ => 0)).2.2.2
    Unit raxAlwaysExisted 0 (fun _ => 0) 0 [1, 2] emptyTable () 0
    1 [48] (by decide) (by decide) (by decide)

end RaxTest
